import Mathlib

/-!
Verification of the XMODEM-1k firmware sender
(`scripts/support/xmodem1k_sender.py`).

Bytes are modelled as natural numbers below 256, byte strings as `List ℕ`.
Machine arithmetic is modelled on `ℕ` with explicit masking, mirroring the
Python source (Python integers are unbounded; the source masks explicitly).
-/

set_option maxRecDepth 100000

namespace Xmodem

/-- Protocol byte constants, as in the Python module header. -/
def SOH : ℕ := 0x01
def STX : ℕ := 0x02
def EOT : ℕ := 0x04
def ACK : ℕ := 0x06
def NAK : ℕ := 0x15
def PING : ℕ := 0x43

/-- Header flag bit: `NO_VERIFICATION = 1 << 0`. -/
def NO_VERIFICATION : ℕ := 1 <<< 0

/-- One iteration of the inner loop of
`TransferDataCreator._calc_crc16_single_byte`: shift the 24-bit working
value, conditionally XOR in `polynomial << 8`, mask to 24 bits. -/
def crcRound (polynomial combined : ℕ) : ℕ :=
  if combined &&& 0x800000 ≠ 0 then
    ((combined <<< 1) ^^^ (polynomial <<< 8)) &&& 0xFFFFFF
  else
    (combined <<< 1) &&& 0xFFFFFF

/-- `TransferDataCreator._calc_crc16_single_byte`: fold one byte into the
running CRC via sixteen rounds on a 24-bit working value, then return the
upper 16 bits. -/
def calcCrc16SingleByte (polynomial byte crc : ℕ) : ℕ :=
  (((crcRound polynomial)^[16] (crc ^^^ (byte <<< 8))) >>> 8) &&& 0xFFFF

/-- `TransferDataCreator.calc_crc16`: CRC over a byte string. -/
def calcCrc16 (polynomial : ℕ) (data : List ℕ) (initialCrc : ℕ) : ℕ :=
  data.foldl (fun crc byte => calcCrc16SingleByte polynomial byte crc) initialCrc

/-- Modelled from the spec: one round of the classic CCITT/XMODEM CRC-16
update — 16-bit register, shift left, conditionally XOR the polynomial when
bit 15 was set, mask to 16 bits. -/
def classicCrcRound (polynomial crc : ℕ) : ℕ :=
  if crc &&& 0x8000 ≠ 0 then
    ((crc <<< 1) ^^^ polynomial) &&& 0xFFFF
  else
    (crc <<< 1) &&& 0xFFFF

/-- Modelled from the spec: the classic per-byte CCITT/XMODEM CRC-16 step —
XOR the byte into the high byte of the 16-bit register, then eight
shift-and-conditionally-XOR rounds. -/
def classicCrc16Byte (polynomial byte crc : ℕ) : ℕ :=
  (classicCrcRound polynomial)^[8] (crc ^^^ (byte <<< 8))

/-- Modelled from the spec: classic CCITT/XMODEM CRC-16 over a byte string. -/
def classicCrc16 (polynomial : ℕ) (data : List ℕ) (initialCrc : ℕ) : ℕ :=
  data.foldl (fun crc byte => classicCrc16Byte polynomial byte crc) initialCrc

section CrcLemmas

lemma and_mask_eq_mod (x w : ℕ) : x &&& (2 ^ w - 1) = x % 2 ^ w :=
  Nat.and_pow_two_sub_one_eq_mod x w

lemma and_mask24 (x : ℕ) : x &&& 0xFFFFFF = x % 2 ^ 24 := by
  have := and_mask_eq_mod x 24; norm_num at this; exact this

lemma and_mask16 (x : ℕ) : x &&& 0xFFFF = x % 2 ^ 16 := by
  have := and_mask_eq_mod x 16; norm_num at this; exact this

lemma testBit23_ne (x : ℕ) : (x &&& 0x800000 ≠ 0) ↔ x.testBit 23 := by
  have h := Nat.and_two_pow x 23
  norm_num at h
  rw [h]
  cases hx : x.testBit 23 <;> simp

lemma testBit15_ne (x : ℕ) : (x &&& 0x8000 ≠ 0) ↔ x.testBit 15 := by
  have h := Nat.and_two_pow x 15
  norm_num at h
  rw [h]
  cases hx : x.testBit 15 <;> simp

lemma shiftLeft_xor_distrib (a b n : ℕ) :
    (a ^^^ b) <<< n = (a <<< n) ^^^ (b <<< n) := by
  apply Nat.eq_of_testBit_eq
  intro i
  simp only [Nat.testBit_shiftLeft, Nat.testBit_xor]
  by_cases h : n ≤ i <;> simp [h]

lemma shiftLeft8_mod24 (x : ℕ) : (x <<< 8) % 2 ^ 24 = (x % 2 ^ 16) <<< 8 := by
  simp only [Nat.shiftLeft_eq]
  have h : (2 : ℕ) ^ 24 = 2 ^ 16 * 2 ^ 8 := by norm_num
  rw [h, Nat.mul_mod_mul_right]

lemma shiftLeft8_shiftRight8 (x : ℕ) : (x <<< 8) >>> 8 = x := by
  simp [Nat.shiftLeft_eq, Nat.shiftRight_eq_div_pow]

/-- On a working value below 2^23 (no bit 23), a 24-bit round is a plain
shift. -/
lemma crcRound_of_lt (polynomial x : ℕ) (h : x < 2 ^ 23) :
    crcRound polynomial x = x <<< 1 := by
  have ht : x.testBit 23 = false := Nat.testBit_lt_two_pow h
  have hz : ¬ (x &&& 0x800000 ≠ 0) := by
    rw [testBit23_ne, ht]; simp
  rw [crcRound, if_neg hz, and_mask24, Nat.mod_eq_of_lt]
  rw [Nat.shiftLeft_eq]
  have h2 : x * 2 ^ 1 < 2 ^ 23 * 2 ^ 1 :=
    (Nat.mul_lt_mul_right (by norm_num)).mpr h
  calc x * 2 ^ 1 < 2 ^ 23 * 2 ^ 1 := h2
    _ ≤ 2 ^ 24 := by norm_num

lemma shiftLeft_lt_of_lt (x n k : ℕ) (h : x < 2 ^ n) :
    x <<< k < 2 ^ (n + k) := by
  rw [Nat.shiftLeft_eq, pow_add]
  exact (Nat.mul_lt_mul_right (Nat.pos_pow_of_pos k (by norm_num))).mpr h

lemma shiftLeft_shiftLeft_one (y k : ℕ) : (y <<< k) <<< 1 = y <<< (k + 1) := by
  simp [Nat.shiftLeft_eq, pow_succ, Nat.mul_assoc]

/-- The first eight rounds on a 16-bit start value only shift it up. -/
lemma crcRound_iterate_eight (polynomial x : ℕ) (h : x < 2 ^ 16) :
    (crcRound polynomial)^[8] x = x <<< 8 := by
  have main : ∀ k, k ≤ 8 → (crcRound polynomial)^[k] x = x <<< k := by
    intro k
    induction k with
    | zero => intro _; simp
    | succ m ih =>
      intro hm
      rw [Function.iterate_succ_apply', ih (by omega)]
      rw [crcRound_of_lt polynomial (x <<< m)
        (lt_of_lt_of_le (shiftLeft_lt_of_lt x 16 m h)
          (Nat.pow_le_pow_right (by norm_num) (by omega))),
        shiftLeft_shiftLeft_one]
  exact main 8 (le_refl 8)

/-- A 24-bit round on a value of the form `e <<< 8` is the classic 16-bit
round, shifted up by eight bits. -/
lemma crcRound_shifted (polynomial e : ℕ) :
    crcRound polynomial (e <<< 8) = (classicCrcRound polynomial e) <<< 8 := by
  have hbit : ((e <<< 8) &&& 0x800000 ≠ 0) ↔ (e &&& 0x8000 ≠ 0) := by
    rw [testBit23_ne, testBit15_ne]
    simp [Nat.testBit_shiftLeft]
  have comp : ∀ y : ℕ, (y <<< 8) <<< 1 = (y <<< 1) <<< 8 := by
    intro y
    simp only [Nat.shiftLeft_eq]
    ring
  by_cases hc : (e &&& 0x8000 ≠ 0)
  · rw [crcRound, if_pos (hbit.mpr hc), classicCrcRound, if_pos hc]
    rw [comp, ← shiftLeft_xor_distrib, and_mask24, shiftLeft8_mod24,
      and_mask16]
  · rw [crcRound, if_neg (fun h => hc (hbit.mp h)),
      classicCrcRound, if_neg hc]
    rw [comp, and_mask24, shiftLeft8_mod24, and_mask16]

lemma crcRound_iterate_shifted (polynomial : ℕ) (n e : ℕ) :
    (crcRound polynomial)^[n] (e <<< 8) =
      ((classicCrcRound polynomial)^[n] e) <<< 8 := by
  induction n generalizing e with
  | zero => simp
  | succ n ih =>
    rw [Function.iterate_succ_apply, Function.iterate_succ_apply,
      crcRound_shifted, ih]

lemma classicCrcRound_lt (polynomial e : ℕ) :
    classicCrcRound polynomial e < 2 ^ 16 := by
  rw [classicCrcRound]
  by_cases hc : (e &&& 0x8000 ≠ 0)
  · rw [if_pos hc, and_mask16]
    exact Nat.mod_lt _ (by norm_num)
  · rw [if_neg hc, and_mask16]
    exact Nat.mod_lt _ (by norm_num)

/-- Per-byte refinement: the 24-bit working-value method computes the
classic CCITT per-byte CRC step, for any 16-bit running CRC and 8-bit
byte. -/
lemma calcCrc16SingleByte_eq_classic (polynomial byte crc : ℕ)
    (hb : byte < 2 ^ 8) (hc : crc < 2 ^ 16) :
    calcCrc16SingleByte polynomial byte crc =
      classicCrc16Byte polynomial byte crc := by
  have hx : crc ^^^ (byte <<< 8) < 2 ^ 16 := by
    apply Nat.xor_lt_two_pow hc
    have := shiftLeft_lt_of_lt byte 8 8 hb
    norm_num at this
    exact this
  rw [calcCrc16SingleByte, show (16 : ℕ) = 8 + 8 from rfl,
    Function.iterate_add_apply, crcRound_iterate_eight _ _ hx,
    crcRound_iterate_shifted, shiftLeft8_shiftRight8, and_mask16,
    classicCrc16Byte]
  apply Nat.mod_eq_of_lt
  have : ∀ n, 0 < n → (classicCrcRound polynomial)^[n] (crc ^^^ (byte <<< 8)) < 2 ^ 16 := by
    intro n hn
    cases n with
    | zero => omega
    | succ m =>
      rw [Function.iterate_succ_apply']
      exact classicCrcRound_lt _ _
  exact this 8 (by norm_num)

lemma classicCrc16Byte_lt (polynomial byte crc : ℕ) :
    classicCrc16Byte polynomial byte crc < 2 ^ 16 := by
  rw [classicCrc16Byte, show (8 : ℕ) = 7 + 1 from rfl,
    Function.iterate_add_apply]
  exact classicCrcRound_lt _ _

end CrcLemmas

/-- C1: for every byte sequence (bytes < 256), polynomial and 16-bit
initial value, the checksum computed by the 24-bit working-value method of
`calc_crc16` equals the classic CCITT/XMODEM CRC-16 computed with a 16-bit
register and eight rounds per byte. -/
theorem crc16_refines_classic (data : List ℕ) (polynomial initialCrc : ℕ)
    (hdata : ∀ b ∈ data, b < 2 ^ 8) (hinit : initialCrc < 2 ^ 16) :
    calcCrc16 polynomial data initialCrc =
      classicCrc16 polynomial data initialCrc := by
  induction data generalizing initialCrc with
  | nil => rfl
  | cons b rest ih =>
    have hb : b < 2 ^ 8 := hdata b (List.mem_cons_self b rest)
    rw [calcCrc16, List.foldl_cons, classicCrc16, List.foldl_cons,
      calcCrc16SingleByte_eq_classic polynomial b initialCrc hb hinit]
    apply ih
    · exact fun x hx => hdata x (List.mem_cons_of_mem b hx)
    · exact classicCrc16Byte_lt polynomial b initialCrc

/-- Witness for C1 at a concrete input. -/
theorem crc16_refines_classic_witness :
    calcCrc16 0x1021 [0x31, 0x32, 0x33] 0 =
      classicCrc16 0x1021 [0x31, 0x32, 0x33] 0 :=
  crc16_refines_classic [0x31, 0x32, 0x33] 0x1021 0
    (by decide) (by norm_num)

/-- `TransferDataCreator._pad_data`: right-pad with zero bytes to 128 bytes
when the content is at most 128 bytes, otherwise to 1024 bytes.  (The
source's byte-append loops over `range(128 - len)` / `range(1024 - len)`
are `List.replicate` of the truncated difference.) -/
def padData (data : List ℕ) : List ℕ :=
  if data.length ≤ 128 then data ++ List.replicate (128 - data.length) 0
  else data ++ List.replicate (1024 - data.length) 0

/-- `TransferDataCreator._construct_single_chunk`: marker (STX when the
content exceeds 128 bytes, else SOH), block number, its complement, the
padded data, then the CRC high and low bytes. -/
def constructSingleChunk (polynomial : ℕ) (data : List ℕ) (blockNum : ℕ) :
    List ℕ :=
  let marker := if data.length > 128 then STX else SOH
  let padded := padData data
  let crc := calcCrc16 polynomial padded 0
  marker :: blockNum :: (0xFF - blockNum) ::
    (padded ++ [(crc >>> 8) &&& 0xFF, crc &&& 0xFF])

lemma padData_length_small (data : List ℕ) (h : data.length ≤ 128) :
    (padData data).length = 128 := by
  rw [padData, if_pos h]
  simp
  omega

lemma padData_length_big (data : List ℕ) (h1 : 128 < data.length)
    (h2 : data.length ≤ 1024) : (padData data).length = 1024 := by
  rw [padData, if_neg (by omega)]
  simp
  omega

lemma padData_take (data : List ℕ) :
    (padData data).take data.length = data := by
  rw [padData]
  split <;> (rw [List.take_append_of_le_length (le_refl _)]; simp)

/-- C2 (counterexample): the claim asserts that a frame built from content
of at most 128 bytes is exactly 134 bytes; the frame built from empty
content at sequence 1 has 133 bytes, not 134. -/
theorem frame_not_134_bytes :
    ¬ ((constructSingleChunk 0x1021 [] 1).length = 134) := by decide

/-- C2 (amended): for content of at most 1024 bytes and sequence in
[0,255], the built frame is marker, seq, `0xFF - seq`, the content
right-padded with zeros (to 128 bytes when at most 128 bytes of content,
to 1024 bytes otherwise), then the CRC-16 high and low bytes of the padded
block only (polynomial 0x1021, initial 0); the frame is exactly 133 bytes
(marker SOH = 0x01) when the content is at most 128 bytes and exactly 1029
bytes (marker STX = 0x02) otherwise, and the first `len(content)` bytes
after the 3-byte header equal the original content. -/
theorem frame_construction (content : List ℕ) (seq : ℕ)
    (hlen : content.length ≤ 1024) (hseq : seq ≤ 255) :
    (constructSingleChunk 0x1021 content seq =
      (if 128 < content.length then STX else SOH) :: seq :: (0xFF - seq) ::
        ((content ++ List.replicate
            ((if content.length ≤ 128 then 128 else 1024) - content.length) 0)
          ++ [(calcCrc16 0x1021 (padData content) 0 >>> 8) &&& 0xFF,
              calcCrc16 0x1021 (padData content) 0 &&& 0xFF]))
    ∧ (content.length ≤ 128 →
        (constructSingleChunk 0x1021 content seq).length = 133 ∧
        (constructSingleChunk 0x1021 content seq).take 1 = [SOH])
    ∧ (128 < content.length →
        (constructSingleChunk 0x1021 content seq).length = 1029 ∧
        (constructSingleChunk 0x1021 content seq).take 1 = [STX])
    ∧ ((constructSingleChunk 0x1021 content seq).drop 3).take content.length
        = content := by
  have hpad : padData content = content ++ List.replicate
      ((if content.length ≤ 128 then 128 else 1024) - content.length) 0 := by
    rw [padData]; split <;> simp [*]
  refine ⟨?_, ?_, ?_, ?_⟩
  · rw [constructSingleChunk, hpad]
  · intro h
    constructor
    · rw [constructSingleChunk]
      simp [padData_length_small content h]
    · rw [constructSingleChunk]
      rw [if_neg (by omega)]
      simp
  · intro h
    constructor
    · rw [constructSingleChunk]
      simp [padData_length_big content h hlen]
    · rw [constructSingleChunk]
      rw [if_pos (by omega)]
      simp
  · rw [constructSingleChunk]
    simp only [List.drop_succ_cons, List.drop_zero]
    rw [show (padData content ++
        [(calcCrc16 0x1021 (padData content) 0 >>> 8) &&& 0xFF,
         calcCrc16 0x1021 (padData content) 0 &&& 0xFF]).take content.length
      = (padData content).take content.length from
        List.take_append_of_le_length (by
          rw [padData]; split <;> simp)]
    exact padData_take content

/-- Witness for C2 (amended) at a concrete input. -/
theorem frame_construction_witness :
    (constructSingleChunk 0x1021 [0xAA] 7).length = 133 :=
  ((frame_construction [0xAA] 7 (by decide) (by decide)).2.1 (by decide)).1

/-- The block-splitting loop body of `get_transfer_chunks`: append the
byte to the current part; once it reaches 1024 bytes, flush it. -/
def splitStep (st : List (List ℕ) × List ℕ) (byte : ℕ) :
    List (List ℕ) × List ℕ :=
  let cur := st.2 ++ [byte]
  if cur.length = 1024 then (st.1 ++ [cur], []) else (st.1, cur)

/-- The first loop of `TransferDataCreator.get_transfer_chunks`: split the
payload into consecutive 1024-byte parts, appending a final partial part
when one remains (`if current_number_of_bytes != 0`). -/
def dataParts (data : List ℕ) : List (List ℕ) :=
  if (data.foldl splitStep ([], [])).2.length ≠ 0 then
    (data.foldl splitStep ([], [])).1 ++ [(data.foldl splitStep ([], [])).2]
  else
    (data.foldl splitStep ([], [])).1

/-- The second loop body of `get_transfer_chunks`: build one chunk for the
part at the current block number, increment it, and wrap it to 0 once it
exceeds 0xFF. -/
def chunkStep (polynomial : ℕ) (st : List (List ℕ) × ℕ) (part : List ℕ) :
    List (List ℕ) × ℕ :=
  let chunks := st.1 ++ [constructSingleChunk polynomial part st.2]
  let bn := st.2 + 1
  (chunks, if bn > 0xFF then 0 else bn)

/-- `TransferDataCreator.get_transfer_chunks`: the optional header becomes
the first chunk at block number 1; payload parts follow. -/
def getTransferChunks (polynomial : ℕ) (data : List ℕ)
    (header : Option (List ℕ)) : List (List ℕ) :=
  ((dataParts data).foldl (chunkStep polynomial)
    (match header with
      | some h => ([constructSingleChunk polynomial h 1], 2)
      | none => ([], 1))).1

/-- Reference splitting of a payload into consecutive 1024-byte blocks,
the final block holding the remainder. -/
def chunks1024 (l : List ℕ) : List (List ℕ) :=
  if l.isEmpty then [] else l.take 1024 :: chunks1024 (l.drop 1024)
termination_by l.length
decreasing_by
  simp only [List.length_drop]
  cases l with
  | nil => simp [List.isEmpty] at *
  | cons a t => simp; omega

/-- Reference numbering: chunks built from consecutive parts with block
numbers `start % 256`, `(start + 1) % 256`, .... -/
def withSeqs (polynomial : ℕ) : ℕ → List (List ℕ) → List (List ℕ)
  | _, [] => []
  | start, p :: t =>
      constructSingleChunk polynomial p (start % 256) ::
        withSeqs polynomial (start + 1) t

section PlannerLemmas

lemma foldl_splitStep_small (l : List ℕ) :
    ∀ (cur : List ℕ) (parts : List (List ℕ)),
      cur.length < 1024 → cur.length + l.length ≤ 1024 →
      List.foldl splitStep (parts, cur) l =
        if cur.length + l.length = 1024 then (parts ++ [cur ++ l], [])
        else (parts, cur ++ l) := by
  induction l with
  | nil =>
    intro cur parts hc _
    rw [if_neg (by simp; omega)]
    simp
  | cons b t ih =>
    intro cur parts hc htot
    rw [List.foldl_cons]
    by_cases hfull : (cur ++ [b]).length = 1024
    · have ht : t = [] := by
        simp at hfull
        have : t.length = 0 := by simp at htot; omega
        exact List.eq_nil_of_length_eq_zero this
      subst ht
      rw [splitStep, if_pos hfull]
      simp only [List.foldl_nil]
      rw [if_pos (by simp at hfull ⊢; omega)]
    · rw [splitStep, if_neg hfull]
      simp only
      rw [ih (cur ++ [b]) parts (by simp at hfull ⊢; omega)
        (by simp at htot ⊢; omega)]
      have he : (cur ++ [b]) ++ t = cur ++ b :: t := by simp
      rw [he]
      by_cases hq : cur.length + (b :: t).length = 1024
      · rw [if_pos (show (cur ++ [b]).length + t.length = 1024 by
            simp at hq ⊢; omega), if_pos hq]
      · rw [if_neg (show ¬ (cur ++ [b]).length + t.length = 1024 by
            simp at hq ⊢; omega), if_neg hq]

/-- `splitStep` only ever appends to the accumulated list of parts. -/
lemma foldl_splitStep_acc (l : List ℕ) :
    ∀ (cur : List ℕ) (parts : List (List ℕ)),
      List.foldl splitStep (parts, cur) l =
        (parts ++ (List.foldl splitStep ([], cur) l).1,
          (List.foldl splitStep ([], cur) l).2) := by
  induction l with
  | nil => intro cur parts; simp
  | cons b t ih =>
    intro cur parts
    rw [List.foldl_cons, List.foldl_cons]
    by_cases hfull : (cur ++ [b]).length = 1024
    · rw [splitStep, if_pos hfull, splitStep, if_pos hfull]
      simp only
      rw [ih [] (parts ++ [cur ++ [b]]), ih [] ([] ++ [cur ++ [b]])]
      simp
    · rw [splitStep, if_neg hfull, splitStep, if_neg hfull]
      simp only
      rw [ih (cur ++ [b]) parts, ih (cur ++ [b]) []]

lemma dataParts_cons_block (t d : List ℕ) (ht : t.length = 1024) :
    dataParts (t ++ d) = t :: dataParts d := by
  rw [dataParts, dataParts]
  simp only [List.foldl_append]
  rw [foldl_splitStep_small t [] [] (by simp) (by simp [ht])]
  rw [if_pos (show ([] : List ℕ).length + t.length = 1024 by simp [ht])]
  simp only [List.nil_append]
  rw [foldl_splitStep_acc d [] [t]]
  by_cases hz : (List.foldl splitStep ([], []) d).2.length ≠ 0
  · rw [if_pos (by simpa using hz), if_pos hz]
    simp
  · rw [if_neg (by simpa using hz), if_neg hz]
    simp

lemma dataParts_step (data : List ℕ) (h : 1024 ≤ data.length) :
    dataParts data = data.take 1024 :: dataParts (data.drop 1024) := by
  have htake : (data.take 1024).length = 1024 := by
    rw [List.length_take]
    omega
  conv_lhs => rw [← List.take_append_drop 1024 data]
  exact dataParts_cons_block (data.take 1024) (data.drop 1024) htake

lemma dataParts_small (data : List ℕ) (h1 : data ≠ [])
    (h2 : data.length < 1024) : dataParts data = [data] := by
  rw [dataParts]
  rw [foldl_splitStep_small data [] [] (by simp) (by simp; omega)]
  rw [if_neg (show ¬ ([] : List ℕ).length + data.length = 1024 by
    simp; omega)]
  simp [h1]

/-- The splitting loop of `get_transfer_chunks` produces exactly the
consecutive 1024-byte blocks of the payload. -/
lemma dataParts_eq_chunks1024 (data : List ℕ) :
    dataParts data = chunks1024 data := by
  by_cases hnil : data = []
  · subst hnil
    rw [dataParts, chunks1024]
    simp
  · rw [chunks1024, if_neg (by simp [hnil])]
    by_cases hlt : data.length < 1024
    · rw [dataParts_small data hnil hlt]
      rw [List.take_of_length_le (by omega), List.drop_of_length_le (by omega),
        chunks1024]
      simp
    · rw [dataParts_step data (by omega)]
      have := dataParts_eq_chunks1024 (data.drop 1024)
      rw [this]
termination_by data.length
decreasing_by simp; omega

lemma withSeqs_congr (polynomial : ℕ) (t : List (List ℕ)) :
    ∀ a b, a % 256 = b % 256 →
      withSeqs polynomial a t = withSeqs polynomial b t := by
  induction t with
  | nil => intro a b _; rfl
  | cons p r ih =>
    intro a b hab
    rw [withSeqs, withSeqs, hab, ih (a + 1) (b + 1) (by omega)]

/-- The numbering loop of `get_transfer_chunks` assigns block numbers
`bn, bn+1, ...` modulo 256 (the `> 0xFF → 0` reset is reduction mod 256
because numbers advance one at a time). -/
lemma foldl_chunkStep (polynomial : ℕ) (parts : List (List ℕ)) :
    ∀ (acc : List (List ℕ)) (bn : ℕ), bn ≤ 255 →
      (List.foldl (chunkStep polynomial) (acc, bn) parts).1 =
        acc ++ withSeqs polynomial bn parts := by
  induction parts with
  | nil => intro acc bn _; simp [withSeqs]
  | cons p t ih =>
    intro acc bn hbn
    rw [List.foldl_cons, withSeqs]
    rw [show chunkStep polynomial (acc, bn) p =
      (acc ++ [constructSingleChunk polynomial p bn],
        if bn + 1 > 0xFF then 0 else bn + 1) from rfl]
    rw [ih (acc ++ [constructSingleChunk polynomial p bn])
      (if bn + 1 > 0xFF then 0 else bn + 1) (by split <;> omega)]
    rw [Nat.mod_eq_of_lt (by omega : bn < 256)]
    rw [withSeqs_congr polynomial t (if bn + 1 > 0xFF then 0 else bn + 1)
      (bn + 1) (by split <;> omega)]
    simp

/-- The header's contribution to the plan: one frame at block number 1. -/
def headerFrames (polynomial : ℕ) : Option (List ℕ) → List (List ℕ)
  | some h => [constructSingleChunk polynomial h 1]
  | none => []

/-- First block number assigned to payload blocks: 2 after a header,
otherwise 1. -/
def headerStart : Option (List ℕ) → ℕ
  | some _ => 2
  | none => 1

/-- Structural characterization of `get_transfer_chunks`: the optional
header frame at block number 1, then one frame per consecutive 1024-byte
payload block, numbered from 1 (no header) or 2 (header) modulo 256. -/
lemma getTransferChunks_eq (polynomial : ℕ) (data : List ℕ)
    (header : Option (List ℕ)) :
    getTransferChunks polynomial data header =
      headerFrames polynomial header ++
        withSeqs polynomial (headerStart header) (chunks1024 data) := by
  rw [← dataParts_eq_chunks1024]
  cases header with
  | none =>
    unfold getTransferChunks
    simp only [headerFrames, headerStart]
    rw [foldl_chunkStep polynomial (dataParts data) [] 1 (by omega)]
  | some h =>
    unfold getTransferChunks
    simp only [headerFrames, headerStart]
    rw [foldl_chunkStep polynomial (dataParts data)
      [constructSingleChunk polynomial h 1] 2 (by omega)]

lemma withSeqs_length (polynomial : ℕ) (parts : List (List ℕ)) :
    ∀ start, (withSeqs polynomial start parts).length = parts.length := by
  induction parts with
  | nil => intro start; rfl
  | cons p t ih =>
    intro start
    rw [withSeqs, List.length_cons, List.length_cons, ih]

lemma chunks1024_length (data : List ℕ) :
    (chunks1024 data).length = (data.length + 1023) / 1024 := by
  by_cases hnil : data = []
  · subst hnil
    rw [chunks1024]
    simp
  · rw [chunks1024, if_neg (by simp [hnil])]
    rw [List.length_cons, chunks1024_length (data.drop 1024)]
    have hpos : 0 < data.length := List.length_pos.mpr hnil
    simp only [List.length_drop]
    omega
termination_by data.length
decreasing_by
  simp only [List.length_drop]
  have := List.length_pos.mpr hnil
  omega

lemma chunks1024_getD (data : List ℕ) :
    ∀ j, (chunks1024 data).getD j [] = (data.drop (1024 * j)).take 1024 := by
  by_cases hnil : data = []
  · intro j
    subst hnil
    rw [chunks1024]
    simp
  · intro j
    rw [chunks1024, if_neg (by simp [hnil])]
    cases j with
    | zero => simp
    | succ m =>
      rw [List.getD_cons_succ, chunks1024_getD (data.drop 1024) m]
      rw [List.drop_drop]
      congr 1
      ring_nf
termination_by data.length
decreasing_by
  simp only [List.length_drop]
  have := List.length_pos.mpr hnil
  omega

lemma withSeqs_getD (polynomial : ℕ) (parts : List (List ℕ)) :
    ∀ start j, j < parts.length →
      (withSeqs polynomial start parts).getD j [] =
        constructSingleChunk polynomial (parts.getD j [])
          ((start + j) % 256) := by
  induction parts with
  | nil => intro start j hj; simp at hj
  | cons p t ih =>
    intro start j hj
    cases j with
    | zero => simp [withSeqs]
    | succ m =>
      rw [withSeqs, List.getD_cons_succ, List.getD_cons_succ,
        ih (start + 1) m (by simp at hj; omega)]
      congr 2
      omega

end PlannerLemmas

lemma constructSingleChunk_getD1 (polynomial : ℕ) (content : List ℕ)
    (bn : ℕ) : (constructSingleChunk polynomial content bn).getD 1 0 = bn :=
  rfl

lemma getTransferChunks_length (polynomial : ℕ) (data : List ℕ)
    (header : Option (List ℕ)) :
    (getTransferChunks polynomial data header).length =
      (data.length + 1023) / 1024 + (headerFrames polynomial header).length := by
  rw [getTransferChunks_eq, List.length_append, withSeqs_length,
    chunks1024_length]
  omega

/-- The sequence byte (offset 1) of the frame at plan index `i` is
`(i + 1) % 256`, with or without a header. -/
lemma plan_seq_byte (polynomial : ℕ) (data : List ℕ)
    (header : Option (List ℕ)) (i : ℕ)
    (hi : i < (getTransferChunks polynomial data header).length) :
    ((getTransferChunks polynomial data header).getD i []).getD 1 0 =
      (i + 1) % 256 := by
  rw [getTransferChunks_eq] at hi ⊢
  cases header with
  | none =>
    simp only [headerFrames, List.nil_append] at hi ⊢
    have hip : i < (chunks1024 data).length := by
      rw [withSeqs_length] at hi
      exact hi
    rw [withSeqs_getD polynomial (chunks1024 data) (headerStart none) i hip,
      constructSingleChunk_getD1]
    simp only [headerStart]
    congr 1
    omega
  | some h =>
    cases i with
    | zero =>
      simp only [headerFrames, List.singleton_append, List.getD_cons_zero]
      rw [constructSingleChunk_getD1]
    | succ m =>
      simp only [headerFrames, List.singleton_append, List.getD_cons_succ,
        List.length_cons, withSeqs_length] at hi ⊢
      have hmp : m < (chunks1024 data).length := by omega
      rw [withSeqs_getD polynomial (chunks1024 data) (headerStart (some h))
        m hmp, constructSingleChunk_getD1]
      simp only [headerStart]
      congr 1
      omega

/-- C3: the plan contains `ceil(len(payload)/1024)` frames plus one for a
header when supplied; payload blocks are the consecutive 1024-byte slices
of the payload in order (final block the remainder); the header occupies
sequence 1, payload numbering starts at 1 (or continues from 2 after a
header) and increments per frame, wrapping to 0 (not 1) past 255; within a
plan of at most 255 frames no sequence number repeats. -/
theorem plan_structure (data : List ℕ) (header : Option (List ℕ)) :
    (getTransferChunks 0x1021 data header).length =
      (data.length + 1023) / 1024 +
        (match header with | some _ => 1 | none => 0)
    ∧ getTransferChunks 0x1021 data header =
        headerFrames 0x1021 header ++
          withSeqs 0x1021 (headerStart header) (chunks1024 data)
    ∧ (∀ j, (chunks1024 data).getD j [] = (data.drop (1024 * j)).take 1024)
    ∧ (∀ h, header = some h →
        (getTransferChunks 0x1021 data header).getD 0 [] =
          constructSingleChunk 0x1021 h 1)
    ∧ ((getTransferChunks 0x1021 data header).length ≤ 255 →
        ∀ i j, i < (getTransferChunks 0x1021 data header).length →
          j < (getTransferChunks 0x1021 data header).length →
          ((getTransferChunks 0x1021 data header).getD i []).getD 1 0 =
            ((getTransferChunks 0x1021 data header).getD j []).getD 1 0 →
          i = j) := by
  refine ⟨?_, ?_, ?_, ?_, ?_⟩
  · rw [getTransferChunks_length]
    cases header <;> simp [headerFrames]
  · exact getTransferChunks_eq 0x1021 data header
  · exact chunks1024_getD data
  · intro h hh
    subst hh
    rw [getTransferChunks_eq]
    rfl
  · intro hsmall i j hi hj hseq
    rw [plan_seq_byte 0x1021 data header i hi,
      plan_seq_byte 0x1021 data header j hj] at hseq
    rw [Nat.mod_eq_of_lt (by omega), Nat.mod_eq_of_lt (by omega)] at hseq
    omega

/-- Witness for C3 at a concrete input (50-byte payload with a 12-byte
header: two frames). -/
theorem plan_structure_witness :
    (getTransferChunks 0x1021 (List.replicate 50 0)
      (some (List.replicate 12 0))).length = 2 :=
  (plan_structure (List.replicate 50 0) (some (List.replicate 12 0))).1

/-!
The send-side session (`FirmwareUploader.upload_data`).  The serial
channel is modelled by a script of what each read operation returns:
pyserial's `read()` yields zero or one buffered bytes within the timeout
and `read_all()` yields everything currently buffered (possibly `None`).
The session's observable actions (opening the port, writes, progress
prints) are recorded in an event trace; raising `OSError` aborts the
session, which the model reports as a failure outcome.
-/

/-- Typed failure outcomes of `upload_data` (each corresponds to one of
the `raise OSError` sites). -/
inductive UploadFailure where
  | noReadyMarker : UploadFailure
  | unexpectedReply : ℕ → UploadFailure
  | noFinalAck : UploadFailure
deriving DecidableEq

/-- Terminal outcome of one session run. -/
inductive UploadResult where
  | completed : UploadResult
  | failed : UploadFailure → UploadResult
deriving DecidableEq

/-- Observable side effects of `upload_data`, in order. -/
inductive Event where
  | openChannel : Event
  | closeChannel : Event
  | write : List ℕ → Event
  | progress : ℕ → ℕ → Event
deriving DecidableEq

/-- What the channel returns to each read the session performs. -/
structure UartScript where
  /-- Result of the initial `uart.read_all()` (None is possible). -/
  initReadAll : Option (List ℕ)
  /-- Result of the fallback `uart.read()` when `read_all` returned None. -/
  initRead : List ℕ
  /-- Result of `uart.read()` after writing chunk `i` (0-based). -/
  reply : ℕ → List ℕ
  /-- Result of `uart.read_all()` after reading chunk `i`'s reply. -/
  extra : ℕ → Option (List ℕ)
  /-- Result of `uart.read()` after writing the EOT byte. -/
  finalReply : List ℕ
  /-- Bytes still buffered after the final reply; the session never
  reads these. -/
  finalExtra : Option (List ℕ)

/-- The bytes the handshake examines: `read_all()`, falling back to a
single `read()` when `read_all` returned None. -/
def handshakeData (script : UartScript) : List ℕ :=
  match script.initReadAll with
  | some l => l
  | none => script.initRead

/-- The per-chunk abort condition of the sending loop:
`response != ACK or (empty is not None and len(empty) != 0)`. -/
def badReply (script : UartScript) (i : ℕ) : Bool :=
  (script.reply i != [ACK]) ||
    (match script.extra i with
      | some l => l.length != 0
      | none => false)

/-- The sending loop of `upload_data`: report progress, write the chunk,
read the reply and the leftover bytes; abort on a bad reply (the loop
index is 1-based in the printout, the abort index 0-based here). -/
def uploadLoop (script : UartScript) (total : ℕ) :
    ℕ → List (List ℕ) → List Event × Option ℕ
  | _, [] => ([], none)
  | i, chunk :: rest =>
      let evs := [Event.progress (i + 1) total, Event.write chunk]
      if badReply script i then
        (evs, some i)
      else
        let r := uploadLoop script total (i + 1) rest
        (evs ++ r.1, r.2)

/-- `FirmwareUploader.upload_data`: open the port, check the handshake,
send every chunk awaiting acknowledgement, then send EOT and await its
acknowledgement.  The port is never explicitly closed. -/
def uploadData (chunks : List (List ℕ)) (script : UartScript) :
    UploadResult × List Event :=
  let openEvs := [Event.openChannel]
  if (handshakeData script).length = 0 ∨
      (handshakeData script).getLast? ≠ some PING then
    (UploadResult.failed UploadFailure.noReadyMarker, openEvs)
  else
    let r := uploadLoop script chunks.length 0 chunks
    match r.2 with
    | some i =>
        (UploadResult.failed (UploadFailure.unexpectedReply i),
          openEvs ++ r.1)
    | none =>
        if script.finalReply ≠ [ACK] then
          (UploadResult.failed UploadFailure.noFinalAck,
            openEvs ++ r.1 ++ [Event.write [EOT]])
        else
          (UploadResult.completed, openEvs ++ r.1 ++ [Event.write [EOT]])

/-- The frames written to the channel, in order. -/
def writesOf (trace : List Event) : List (List ℕ) :=
  trace.filterMap (fun e =>
    match e with
    | Event.write c => some c
    | _ => none)

/-- The event sequence of an abort-free prefix of the sending loop. -/
def sendingTrace (total : ℕ) : ℕ → List (List ℕ) → List Event
  | _, [] => []
  | i, c :: rest =>
      Event.progress (i + 1) total :: Event.write c ::
        sendingTrace total (i + 1) rest

section SessionLemmas

lemma badReply_iff (script : UartScript) (i : ℕ) :
    badReply script i = true ↔
      (script.reply i ≠ [ACK] ∨
        ∃ l, script.extra i = some l ∧ l ≠ []) := by
  unfold badReply
  cases hx : script.extra i with
  | none => simp [hx]
  | some l => simp [hx, List.length_eq_zero]

lemma uploadLoop_clean (script : UartScript) (total : ℕ) :
    ∀ (chunks : List (List ℕ)) (i : ℕ),
      (∀ k, k < chunks.length → badReply script (i + k) = false) →
      uploadLoop script total i chunks = (sendingTrace total i chunks, none) := by
  intro chunks
  induction chunks with
  | nil => intro i _; rfl
  | cons c rest ih =>
    intro i hclean
    rw [uploadLoop, sendingTrace]
    have h0 : badReply script i = false := by
      have := hclean 0 (by simp)
      simpa using this
    rw [if_neg (by simp [h0])]
    rw [ih (i + 1) (fun k hk => by
      have := hclean (k + 1) (by simp; omega)
      rw [show i + 1 + k = i + (k + 1) by omega]
      exact this)]
    simp

lemma uploadLoop_fail (script : UartScript) (total : ℕ) :
    ∀ (chunks : List (List ℕ)) (i j : ℕ), j < chunks.length →
      (∀ k, k < j → badReply script (i + k) = false) →
      badReply script (i + j) = true →
      uploadLoop script total i chunks =
        (sendingTrace total i (chunks.take (j + 1)), some (i + j)) := by
  intro chunks
  induction chunks with
  | nil => intro i j hj; simp at hj
  | cons c rest ih =>
    intro i j hj hclean hbad
    rw [uploadLoop]
    cases j with
    | zero =>
      rw [if_pos (by simpa using hbad)]
      simp [sendingTrace]
    | succ m =>
      have h0 : badReply script i = false := by
        have := hclean 0 (by omega)
        simpa using this
      rw [if_neg (by simp [h0])]
      rw [ih (i + 1) m (by simp at hj; omega)
        (fun k hk => by
          have := hclean (k + 1) (by omega)
          rw [show i + 1 + k = i + (k + 1) by omega]
          exact this)
        (by rw [show i + 1 + m = i + (m + 1) by omega]; exact hbad)]
      simp [sendingTrace, List.take_cons]
      omega

lemma writesOf_sendingTrace (total : ℕ) :
    ∀ (chunks : List (List ℕ)) (i : ℕ),
      writesOf (sendingTrace total i chunks) = chunks := by
  intro chunks
  induction chunks with
  | nil => intro i; rfl
  | cons c rest ih =>
    intro i
    rw [sendingTrace, writesOf]
    simp only [List.filterMap_cons]
    rw [← writesOf, ih (i + 1)]

lemma progress_mem_sendingTrace (total : ℕ) :
    ∀ (chunks : List (List ℕ)) (i m : ℕ), m < chunks.length →
      Event.progress (i + m + 1) total ∈ sendingTrace total i chunks := by
  intro chunks
  induction chunks with
  | nil => intro i m hm; simp at hm
  | cons c rest ih =>
    intro i m hm
    rw [sendingTrace]
    cases m with
    | zero => simp
    | succ n =>
      have := ih (i + 1) n (by simp at hm; omega)
      rw [show i + (n + 1) + 1 = i + 1 + n + 1 by omega]
      simp [this]

lemma sendingTrace_events (total : ℕ) :
    ∀ (chunks : List (List ℕ)) (i : ℕ) (e : Event),
      e ∈ sendingTrace total i chunks →
      e ≠ Event.openChannel ∧ e ≠ Event.closeChannel := by
  intro chunks
  induction chunks with
  | nil => intro i e he; simp [sendingTrace] at he
  | cons c rest ih =>
    intro i e he
    rw [sendingTrace] at he
    simp only [List.mem_cons] at he
    rcases he with h | h | h
    · subst h; exact ⟨by simp, by simp⟩
    · subst h; exact ⟨by simp, by simp⟩
    · exact ih (i + 1) e h

lemma uploadLoop_events (script : UartScript) (total : ℕ) :
    ∀ (chunks : List (List ℕ)) (i : ℕ) (e : Event),
      e ∈ (uploadLoop script total i chunks).1 →
      e ≠ Event.openChannel ∧ e ≠ Event.closeChannel := by
  intro chunks
  induction chunks with
  | nil => intro i e he; simp [uploadLoop] at he
  | cons c rest ih =>
    intro i e he
    rw [uploadLoop] at he
    by_cases hb : badReply script i
    · rw [if_pos hb] at he
      simp at he
      rcases he with h | h
      · subst h; exact ⟨by simp, by simp⟩
      · subst h; exact ⟨by simp, by simp⟩
    · rw [if_neg hb] at he
      simp at he
      rcases he with h | h | h
      · subst h; exact ⟨by simp, by simp⟩
      · subst h; exact ⟨by simp, by simp⟩
      · exact ih (i + 1) e h

lemma handshake_pass (script : UartScript)
    (hhs : (handshakeData script).getLast? = some PING) :
    ¬((handshakeData script).length = 0 ∨
      (handshakeData script).getLast? ≠ some PING) := by
  push_neg
  refine ⟨?_, hhs⟩
  intro h0
  rw [List.length_eq_zero] at h0
  rw [h0] at hhs
  simp at hhs

lemma uploadData_eq_of_pass (chunks : List (List ℕ)) (script : UartScript)
    (hhs : (handshakeData script).getLast? = some PING) :
    uploadData chunks script =
      match (uploadLoop script chunks.length 0 chunks).2 with
      | some i =>
          (UploadResult.failed (UploadFailure.unexpectedReply i),
            [Event.openChannel] ++ (uploadLoop script chunks.length 0 chunks).1)
      | none =>
          if script.finalReply ≠ [ACK] then
            (UploadResult.failed UploadFailure.noFinalAck,
              [Event.openChannel] ++ (uploadLoop script chunks.length 0 chunks).1
                ++ [Event.write [EOT]])
          else
            (UploadResult.completed,
              [Event.openChannel] ++ (uploadLoop script chunks.length 0 chunks).1
                ++ [Event.write [EOT]]) := by
  simp only [uploadData, if_neg (handshake_pass script hhs)]

lemma writesOf_nil : writesOf [] = [] := rfl

lemma writesOf_cons_open (t : List Event) :
    writesOf (Event.openChannel :: t) = writesOf t := by
  simp [writesOf]

lemma writesOf_append (a b : List Event) :
    writesOf (a ++ b) = writesOf a ++ writesOf b := by
  simp [writesOf]

/-- C6: the handshake passes exactly when the flushed/received data is
non-empty with last byte 0x43; otherwise the session fails with the
no-ready-marker error before any frame is written. -/
theorem handshake_gate (chunks : List (List ℕ)) (script : UartScript) :
    ((uploadData chunks script).1 =
        UploadResult.failed UploadFailure.noReadyMarker ↔
      ¬(handshakeData script ≠ [] ∧
        (handshakeData script).getLast? = some PING))
    ∧ ((uploadData chunks script).1 =
        UploadResult.failed UploadFailure.noReadyMarker →
      writesOf (uploadData chunks script).2 = []) := by
  by_cases hc : (handshakeData script).length = 0 ∨
      (handshakeData script).getLast? ≠ some PING
  · rw [show uploadData chunks script =
      (UploadResult.failed UploadFailure.noReadyMarker, [Event.openChannel])
      from by simp only [uploadData, if_pos hc]]
    refine ⟨⟨fun _ => ?_, fun _ => rfl⟩, fun _ => rfl⟩
    rcases hc with h0 | hlast
    · rw [List.length_eq_zero] at h0
      intro hcl
      exact hcl.1 h0
    · intro hcl
      exact hlast hcl.2
  · push_neg at hc
    have hhs := hc.2
    rw [uploadData_eq_of_pass chunks script hhs]
    have hres : ∀ (p : UploadResult × List Event),
        p = (match (uploadLoop script chunks.length 0 chunks).2 with
          | some i =>
              (UploadResult.failed (UploadFailure.unexpectedReply i),
                [Event.openChannel] ++ (uploadLoop script chunks.length 0 chunks).1)
          | none =>
              if script.finalReply ≠ [ACK] then
                (UploadResult.failed UploadFailure.noFinalAck,
                  [Event.openChannel] ++ (uploadLoop script chunks.length 0 chunks).1
                    ++ [Event.write [EOT]])
              else
                (UploadResult.completed,
                  [Event.openChannel] ++ (uploadLoop script chunks.length 0 chunks).1
                    ++ [Event.write [EOT]])) →
        p.1 ≠ UploadResult.failed UploadFailure.noReadyMarker := by
      intro p hp
      rcases hm : (uploadLoop script chunks.length 0 chunks).2 with _ | i
      · rw [hm] at hp
        simp only at hp
        by_cases hf : script.finalReply ≠ [ACK]
        · rw [if_pos hf] at hp
          rw [hp]
          simp
        · rw [if_neg hf] at hp
          rw [hp]
          simp
      · rw [hm] at hp
        simp only at hp
        rw [hp]
        simp
    constructor
    · constructor
      · intro habs
        exact absurd habs (hres _ rfl)
      · intro hcl
        exact absurd ⟨by
          intro h0
          rw [h0] at hhs
          simp at hhs, hhs⟩ hcl
    · intro habs
      exact absurd habs (hres _ rfl)

/-- C4: after a passed handshake, when the acknowledgements of frames
0..j-1 are clean and the reply to frame j differs from 0x06 or leaves
extra unread bytes pending, the session fails with the unexpected-reply
error at index j, having written exactly frames 0..j — no further frame is
sent. -/
theorem unexpected_reply_aborts (chunks : List (List ℕ))
    (script : UartScript) (j : ℕ)
    (hhs : (handshakeData script).getLast? = some PING)
    (hj : j < chunks.length)
    (hclean : ∀ k, k < j → badReply script k = false)
    (hbad : script.reply j ≠ [ACK] ∨ ∃ l, script.extra j = some l ∧ l ≠ []) :
    (uploadData chunks script).1 =
        UploadResult.failed (UploadFailure.unexpectedReply j)
    ∧ writesOf (uploadData chunks script).2 = chunks.take (j + 1) := by
  have hb : badReply script j = true := (badReply_iff script j).mpr hbad
  have hloop := uploadLoop_fail script chunks.length chunks 0 j hj
    (fun k hk => by simpa using hclean k hk) (by simpa using hb)
  rw [uploadData_eq_of_pass chunks script hhs, hloop]
  simp only [List.singleton_append]
  constructor
  · simp
  · rw [writesOf_cons_open, writesOf_sendingTrace]

/-- A channel that replies 0x15 (NAK) to every frame after a clean
handshake. -/
def nakScript : UartScript where
  initReadAll := some [PING]
  initRead := []
  reply := fun _ => [NAK]
  extra := fun _ => some []
  finalReply := [ACK]
  finalExtra := none

/-- Witness for C4: a NAK to the first frame ends the session failed at
index 0. -/
theorem unexpected_reply_aborts_witness :
    (uploadData [[0]] nakScript).1 =
      UploadResult.failed (UploadFailure.unexpectedReply 0) :=
  (unexpected_reply_aborts [[0]] nakScript 0 (by decide) (by decide)
    (fun k hk => absurd hk (by omega)) (Or.inl (by decide))).1

/-- A channel that acknowledges everything cleanly but still has a byte
buffered after the final acknowledgement. -/
def eotPendingScript : UartScript where
  initReadAll := some [PING]
  initRead := []
  reply := fun _ => [ACK]
  extra := fun _ => some []
  finalReply := [ACK]
  finalExtra := some [NAK]

/-- C7 (counterexample): the claim asserts that unread bytes pending after
the end-of-transmission acknowledgement make the session fail; with a byte
pending after the final 0x06 the session nevertheless completes — the code
never reads past the single final reply byte. -/
theorem eot_pending_bytes_ignored :
    eotPendingScript.finalExtra = some [NAK] ∧
      (uploadData [] eotPendingScript).1 = UploadResult.completed := by
  decide

/-- C7 (amended): after the last frame is acknowledged the session writes
the single end-of-transmission byte 0x04 as its final channel write, and
completes exactly when the one reply byte equals 0x06 — unlike a data
frame's acknowledgement, bytes still pending after that reply are not
examined. -/
theorem eot_ack_single_byte (chunks : List (List ℕ)) (script : UartScript)
    (hhs : (handshakeData script).getLast? = some PING)
    (hclean : ∀ k, k < chunks.length → badReply script k = false) :
    (uploadData chunks script).2 =
        Event.openChannel :: sendingTrace chunks.length 0 chunks
          ++ [Event.write [EOT]]
    ∧ ((uploadData chunks script).1 = UploadResult.completed ↔
        script.finalReply = [ACK]) := by
  have hloop := uploadLoop_clean script chunks.length chunks 0
    (fun k hk => by simpa using hclean k hk)
  rw [uploadData_eq_of_pass chunks script hhs, hloop]
  simp only
  by_cases hf : script.finalReply = [ACK]
  · rw [if_neg (by simpa using hf)]
    simp [hf]
  · rw [if_pos (by simpa using hf)]
    simp [hf]

/-- A channel that handshakes and acknowledges everything cleanly. -/
def ackScript : UartScript where
  initReadAll := some [PING]
  initRead := []
  reply := fun _ => [ACK]
  extra := fun _ => some []
  finalReply := [ACK]
  finalExtra := none

/-- Witness for C7 (amended) at a concrete input. -/
theorem eot_ack_single_byte_witness :
    (uploadData [] ackScript).1 = UploadResult.completed :=
  ((eot_ack_single_byte [] ackScript (by decide)
    (fun k hk => absurd hk (by simp))).2).mpr (by decide)

/-- Whenever frames 0..m-1 were acknowledged cleanly, the sending loop's
trace contains the progress report for frame `m` immediately followed by
that frame's write — regardless of frame `m`'s own acknowledgement. -/
lemma uploadLoop_progress_write (script : UartScript) (total : ℕ) :
    ∀ (chunks : List (List ℕ)) (i m : ℕ), m < chunks.length →
      (∀ k, k < m → badReply script (i + k) = false) →
      ∃ pre post, (uploadLoop script total i chunks).1 =
        pre ++ Event.progress (i + m + 1) total ::
          Event.write (chunks.getD m []) :: post := by
  intro chunks
  induction chunks with
  | nil => intro i m hm _; simp at hm
  | cons c rest ih =>
    intro i m hm hclean
    rw [uploadLoop]
    cases m with
    | zero =>
      by_cases hb : badReply script i
      · rw [if_pos hb]
        exact ⟨[], [], by simp⟩
      · rw [if_neg hb]
        exact ⟨[], (uploadLoop script total (i + 1) rest).1, by simp⟩
    | succ n =>
      have h0 : badReply script i = false := by
        have := hclean 0 (by omega)
        simpa using this
      rw [if_neg (by simp [h0])]
      obtain ⟨pre, post, hp⟩ := ih (i + 1) n (by simp at hm; omega)
        (fun k hk => by
          have := hclean (k + 1) (by omega)
          rw [show i + 1 + k = i + (k + 1) by omega]
          exact this)
      refine ⟨Event.progress (i + 1) total :: Event.write c :: pre, post, ?_⟩
      rw [show i + (n + 1) + 1 = i + 1 + n + 1 by omega,
        List.getD_cons_succ]
      simp [hp]

/-- C8 (counterexample): the claim asserts a progress report is emitted
only after the frame's acknowledgement is successfully received; with a
NAK reply to the first frame the report for that frame is in the trace
even though the session fails at index 0. -/
theorem progress_despite_bad_ack :
    Event.progress 1 1 ∈ (uploadData [[0]] nakScript).2 ∧
      (uploadData [[0]] nakScript).1 =
        UploadResult.failed (UploadFailure.unexpectedReply 0) := by
  decide

/-- C8 (amended): the progress report (current index out of total) for a
frame is emitted immediately before that frame is written — once all
earlier frames have been acknowledged cleanly, but before the frame's own
acknowledgement is read — so it appears, directly preceding the frame's
write, even when that acknowledgement is wrong or missing. -/
theorem progress_before_ack (chunks : List (List ℕ)) (script : UartScript)
    (i : ℕ)
    (hhs : (handshakeData script).getLast? = some PING)
    (hi : i < chunks.length)
    (hclean : ∀ k, k < i → badReply script k = false) :
    ∃ pre post, (uploadData chunks script).2 =
      pre ++ Event.progress (i + 1) chunks.length ::
        Event.write (chunks.getD i []) :: post := by
  obtain ⟨pre, post, hp⟩ := uploadLoop_progress_write script chunks.length
    chunks 0 i hi (fun k hk => by simpa using hclean k hk)
  rw [show (0 : ℕ) + i + 1 = i + 1 by omega] at hp
  rw [uploadData_eq_of_pass chunks script hhs]
  rcases hm : (uploadLoop script chunks.length 0 chunks).2 with _ | k
  · simp only [hm]
    by_cases hf : script.finalReply ≠ [ACK]
    · rw [if_pos hf]
      refine ⟨Event.openChannel :: pre, post ++ [Event.write [EOT]], ?_⟩
      simp [hp]
    · rw [if_neg hf]
      refine ⟨Event.openChannel :: pre, post ++ [Event.write [EOT]], ?_⟩
      simp [hp]
  · simp only [hm]
    refine ⟨Event.openChannel :: pre, post, ?_⟩
    simp [hp]

/-- Witness for C8 (amended) at a concrete input: the report directly
precedes the frame's write in the trace. -/
theorem progress_before_ack_witness :
    ∃ pre post, (uploadData [[0]] ackScript).2 =
      pre ++ Event.progress 1 1 :: Event.write [0] :: post :=
  progress_before_ack [[0]] ackScript 0 (by decide) (by decide)
    (fun k hk => absurd hk (by omega))

/-- C9 (counterexample): the claim asserts the channel is closed on every
exit path; on a successfully completed session the trace contains no
close event — the code never closes the port. -/
theorem channel_not_closed_on_success :
    (uploadData [] ackScript).1 = UploadResult.completed ∧
      Event.closeChannel ∉ (uploadData [] ackScript).2 := by
  decide

/-- C9 (amended): the channel is opened exactly once per session, before
the handshake and any other observable action, and is never explicitly
closed on any exit path — closing is left to the runtime. -/
theorem channel_open_once_never_closed (chunks : List (List ℕ))
    (script : UartScript) :
    ∃ rest, (uploadData chunks script).2 = Event.openChannel :: rest
      ∧ ∀ e ∈ rest, e ≠ Event.openChannel ∧ e ≠ Event.closeChannel := by
  by_cases hc : (handshakeData script).length = 0 ∨
      (handshakeData script).getLast? ≠ some PING
  · refine ⟨[], ?_, ?_⟩
    · simp only [uploadData, if_pos hc]
    · intro e he
      simp at he
  · push_neg at hc
    rw [uploadData_eq_of_pass chunks script hc.2]
    rcases hm : (uploadLoop script chunks.length 0 chunks).2 with _ | k
    · simp only [hm]
      by_cases hf : script.finalReply ≠ [ACK]
      · rw [if_pos hf]
        refine ⟨(uploadLoop script chunks.length 0 chunks).1
          ++ [Event.write [EOT]], by simp, ?_⟩
        intro e he
        simp at he
        rcases he with h | h
        · exact uploadLoop_events script chunks.length chunks 0 e h
        · subst h
          exact ⟨by simp, by simp⟩
      · rw [if_neg hf]
        refine ⟨(uploadLoop script chunks.length 0 chunks).1
          ++ [Event.write [EOT]], by simp, ?_⟩
        intro e he
        simp at he
        rcases he with h | h
        · exact uploadLoop_events script chunks.length chunks 0 e h
        · subst h
          exact ⟨by simp, by simp⟩
    · simp only [hm]
      refine ⟨(uploadLoop script chunks.length 0 chunks).1, by simp, ?_⟩
      intro e he
      exact uploadLoop_events script chunks.length chunks 0 e he

end SessionLemmas

/-- Big-endian byte encoding of a value on `n` bytes, most significant
first (`struct.pack` with `>`). -/
def toBytesBE : ℕ → ℕ → List ℕ
  | 0, _ => []
  | m + 1, v => ((v >>> (8 * m)) &&& 0xFF) :: toBytesBE m v

/-- `TransferDataCreator.add_header`: `struct.pack(">LLL", flash_offset,
flash_size, flags)` — three big-endian 32-bit fields. -/
def addHeader (flashOffset flashSize flags : ℕ) : List ℕ :=
  toBytesBE 4 flashOffset ++ toBytesBE 4 flashSize ++ toBytesBE 4 flags

/-- Big-endian decoding of a byte string. -/
def fromBytesBE (l : List ℕ) : ℕ :=
  l.foldl (fun acc b => acc * 256 + b) 0

/-- The flag word `main` builds: `flags = 0x0`, then
`flags |= NO_VERIFICATION` when verification is suppressed. -/
def mainFlags (noVerify : Bool) : ℕ :=
  if noVerify then 0x0 ||| NO_VERIFICATION else 0x0

/-- The header `main` installs: present exactly when a flash offset was
supplied, packed from the offset, the full payload length and the flag
word. -/
def mainHeader (data : List ℕ) (flashOffset : Option ℕ) (noVerify : Bool) :
    Option (List ℕ) :=
  flashOffset.map (fun off => addHeader off data.length (mainFlags noVerify))

/-- `main`: reject an empty input file with an error, otherwise build the
chunks (with the header when a flash offset was given, default polynomial
0x1021) and run the upload session. -/
def mainModel (data : List ℕ) (flashOffset : Option ℕ) (noVerify : Bool)
    (script : UartScript) : Except Unit (UploadResult × List Event) :=
  if data.length = 0 then
    Except.error ()
  else
    Except.ok (uploadData
      (getTransferChunks 0x1021 data (mainHeader data flashOffset noVerify))
      script)

/-- C5 (counterexample): the claim asserts an empty payload with no header
is not an error for the transfer program; `main` rejects an empty input
with an error before any planning or transfer. -/
theorem empty_payload_rejected :
    mainModel [] none false ackScript = Except.error () := rfl

/-- C5 (amended): `main` rejects an empty payload with an error before the
session runs; the chunk planner itself yields a zero-frame plan for an
empty payload with no header, and the session run on a zero-frame plan
still performs the handshake, immediately sends the end-of-transmission
marker as its only write, and ends completed when 0x06 is received. -/
theorem empty_payload_engine (script : UartScript)
    (hhs : (handshakeData script).getLast? = some PING)
    (hfin : script.finalReply = [ACK]) :
    mainModel [] none false script = Except.error ()
    ∧ getTransferChunks 0x1021 [] none = []
    ∧ uploadData [] script =
        (UploadResult.completed,
          [Event.openChannel, Event.write [EOT]]) := by
  refine ⟨rfl, rfl, ?_⟩
  rw [uploadData_eq_of_pass [] script hhs]
  simp only [uploadLoop]
  rw [if_neg (by simpa using hfin)]
  rfl

/-- Witness for C5 (amended) at a concrete input. -/
theorem empty_payload_engine_witness :
    uploadData [] ackScript =
      (UploadResult.completed, [Event.openChannel, Event.write [EOT]]) :=
  (empty_payload_engine ackScript (by decide) (by decide)).2.2

section HeaderLemmas

lemma and_mask8 (x : ℕ) : x &&& 0xFF = x % 2 ^ 8 := by
  have := and_mask_eq_mod x 8
  norm_num at this
  exact this

lemma toBytesBE_four (v : ℕ) :
    toBytesBE 4 v = [(v >>> 24) &&& 0xFF, (v >>> 16) &&& 0xFF,
      (v >>> 8) &&& 0xFF, v &&& 0xFF] := by
  simp [toBytesBE]

lemma toBytesBE_four_length (v : ℕ) : (toBytesBE 4 v).length = 4 := by
  rw [toBytesBE_four]
  rfl

lemma fromBytesBE_toBytesBE4 (v : ℕ) (hv : v < 2 ^ 32) :
    fromBytesBE (toBytesBE 4 v) = v := by
  rw [toBytesBE_four]
  simp only [fromBytesBE, List.foldl_cons, List.foldl_nil]
  rw [and_mask8, and_mask8, and_mask8, and_mask8]
  simp only [Nat.shiftRight_eq_div_pow]
  norm_num
  omega

lemma take4_cons (a b c d : ℕ) (rest : List ℕ) :
    List.take 4 (a :: b :: c :: d :: rest) = [a, b, c, d] := rfl

lemma drop4_cons (a b c d : ℕ) (rest : List ℕ) :
    List.drop 4 (a :: b :: c :: d :: rest) = rest := rfl

lemma drop8_cons (a b c d e f g h : ℕ) (rest : List ℕ) :
    List.drop 8 (a :: b :: c :: d :: e :: f :: g :: h :: rest) = rest := rfl

end HeaderLemmas

/-- C10: whenever `main` includes a flash header, it is exactly 12 bytes
packed big-endian as offset, size, flags; the size field equals the length
of the full payload, the offset field is the caller-supplied flash offset,
and the flags field has bit 0 set exactly when verification suppression
was requested, all other bits zero. -/
theorem header_fields (data : List ℕ) (off : ℕ) (noVerify : Bool)
    (hoff : off < 2 ^ 32) (hsize : data.length < 2 ^ 32) :
    ∃ h, mainHeader data (some off) noVerify = some h
      ∧ h.length = 12
      ∧ h = toBytesBE 4 off ++ toBytesBE 4 data.length
          ++ toBytesBE 4 (mainFlags noVerify)
      ∧ fromBytesBE (h.take 4) = off
      ∧ fromBytesBE ((h.drop 4).take 4) = data.length
      ∧ (fromBytesBE (h.drop 8)).testBit 0 = noVerify
      ∧ (∀ k, k ≠ 0 → (fromBytesBE (h.drop 8)).testBit k = false) := by
  have hdrop8 : (addHeader off data.length (mainFlags noVerify)).drop 8
      = toBytesBE 4 (mainFlags noVerify) := by
    rw [addHeader, toBytesBE_four, toBytesBE_four]
    simp only [List.cons_append, List.nil_append]
    rw [drop8_cons]
  refine ⟨addHeader off data.length (mainFlags noVerify), rfl, ?_, rfl, ?_, ?_, ?_, ?_⟩
  · rw [addHeader, toBytesBE_four, toBytesBE_four, toBytesBE_four]
    rfl
  · rw [addHeader, toBytesBE_four]
    simp only [List.cons_append, List.nil_append]
    rw [take4_cons, ← toBytesBE_four]
    exact fromBytesBE_toBytesBE4 off hoff
  · rw [addHeader, toBytesBE_four, toBytesBE_four]
    simp only [List.cons_append, List.nil_append]
    rw [drop4_cons, take4_cons, ← toBytesBE_four]
    exact fromBytesBE_toBytesBE4 data.length hsize
  · rw [hdrop8, fromBytesBE_toBytesBE4 (mainFlags noVerify)
      (by cases noVerify <;> decide)]
    cases noVerify <;> decide
  · intro k hk
    rw [hdrop8, fromBytesBE_toBytesBE4 (mainFlags noVerify)
      (by cases noVerify <;> decide)]
    have hflag : mainFlags noVerify < 2 ^ k := by
      have h1 : (1 : ℕ) < 2 ^ k := by
        calc (1 : ℕ) < 2 ^ 1 := by norm_num
          _ ≤ 2 ^ k := Nat.pow_le_pow_right (by norm_num) (by omega)
      have hle : mainFlags noVerify ≤ 1 := by
        cases noVerify <;> decide
      omega
    exact Nat.testBit_lt_two_pow hflag

/-- Witness for C10 at a concrete input. -/
theorem header_fields_witness :
    (0x1000 : ℕ) < 2 ^ 32 ∧
      ∃ h, mainHeader [0xAB] (some 0x1000) true = some h
        ∧ h.length = 12
        ∧ h = toBytesBE 4 0x1000 ++ toBytesBE 4 ([0xAB] : List ℕ).length
            ++ toBytesBE 4 (mainFlags true)
        ∧ fromBytesBE (h.take 4) = 0x1000
        ∧ fromBytesBE ((h.drop 4).take 4) = ([0xAB] : List ℕ).length
        ∧ (fromBytesBE (h.drop 8)).testBit 0 = true
        ∧ (∀ k, k ≠ 0 → (fromBytesBE (h.drop 8)).testBit k = false) :=
  ⟨by norm_num,
    header_fields [0xAB] 0x1000 true (by norm_num) (by norm_num)⟩

end Xmodem
